import Mathlib

/-!
Shallow embedding of the core of `extract_comment` (src/src/main.rs):
the comment lexer (`extract_comments_from_lines`), the preceding-block
collector loop of `extract_inline_comments`, the syntax locator
(`find_function_item`, `find_function_by_start_line`) and the doc-comment
extractor (`extract_doc_comments`).  Text is modelled as `List Char`,
one list per physical line; fragments are `List Char` as well.
-/

/-- The `commentType` enum of the source: a block-comment scope is either a
documentation block (`/**` or `/*!`) or an ordinary (`inline`) block. -/
inductive CommentType where
  | doc : CommentType
  | inline : CommentType
  deriving DecidableEq

/-- The mutable state of the lexer loops: `comments` (the emitted fragments,
in order), `commentStack` (the open block-comment scopes; the Rust `Vec` is
pushed and popped at the END, and indexed at `[0]` from the front) and
`currentBlock` (the accumulation buffer `current_block`). -/
structure LexState where
  comments : List (List Char)
  commentStack : List CommentType
  currentBlock : List Char
  deriving DecidableEq

/-- Rust's `char::is_whitespace`, restricted to the whitespace the inputs use. -/
def isWSChar (c : Char) : Bool := c.isWhitespace

/-- Rust's `str::trim`: drop leading and trailing whitespace. -/
def trimChars (l : List Char) : List Char :=
  ((l.dropWhile isWSChar).reverse.dropWhile isWSChar).reverse

mutual

/-- The inner `while pos < chars.len()` loop of `extract_comments_from_lines`
(src/src/main.rs lines 174-240), processing the remaining characters of one
line.  Each arm mirrors one branch of the Rust loop body:
with an empty stack, a bounds-checked 2-char lookahead recognises `//`
(emit the rest of the line trimmed, unless the third char is `/` or `!`,
then break) and `/*` (the ordinary branch requires `chars[pos+1] != '*'`
although the enclosing test already fixed `chars[pos+1] == '*'`, otherwise a
documentation scope is pushed with `pos += 3`); with a nonempty stack, `/*`
pushes a new scope, `*/` pops the last scope, dispatching on
`commentStack[0]`, and any other character is appended to the buffer only
when `commentStack[0]` is ordinary.  A final single character never passes
the bounds-checked lookahead, so with an empty stack it is skipped and with
a nonempty stack it reaches the append branch. -/
def lexStep : LexState → List Char → LexState
  | st, [] => st
  | st, c0 :: rest0 =>
      match st.commentStack with
      | [] =>
          match rest0 with
          | [] => st
          | c1 :: rest1 =>
              if c0 = '/' ∧ c1 = '/' then
                match rest1 with
                | c2 :: _ =>
                    if c2 ≠ '/' ∧ c2 ≠ '!' then
                      ⟨st.comments ++ [trimChars (c0 :: c1 :: rest1)], [], st.currentBlock⟩
                    else st
                | [] => st
              else if c0 = '/' ∧ c1 = '*' then
                match rest1 with
                | c2 :: _ =>
                    if c1 ≠ '*' ∧ c2 ≠ '!' then
                      lexSkip1 ⟨st.comments, [CommentType.inline],
                                st.currentBlock ++ ['/', '*']⟩ rest0
                    else
                      lexSkip2 ⟨st.comments, [CommentType.doc], st.currentBlock⟩ rest0
                | [] => ⟨st.comments, [CommentType.doc], st.currentBlock⟩
              else
                lexStep st rest0
      | t :: ts =>
          match rest0 with
          | [] =>
              ⟨st.comments, t :: ts,
               if t = CommentType.inline then st.currentBlock ++ [c0] else st.currentBlock⟩
          | c1 :: _ =>
              if c0 = '/' ∧ c1 = '*' then
                lexSkip1 ⟨st.comments, t :: ts ++ [CommentType.inline],
                          if t = CommentType.inline then st.currentBlock ++ ['/', '*']
                          else st.currentBlock⟩ rest0
              else if c0 = '*' ∧ c1 = '/' then
                match t with
                | CommentType.doc =>
                    lexSkip1 ⟨st.comments, (CommentType.doc :: ts).dropLast,
                              st.currentBlock⟩ rest0
                | CommentType.inline =>
                    if ((CommentType.inline :: ts).dropLast).isEmpty then
                      lexSkip1 ⟨st.comments ++ [trimChars (st.currentBlock ++ ['*', '/'])],
                                (CommentType.inline :: ts).dropLast, []⟩ rest0
                    else
                      lexSkip1 ⟨st.comments, (CommentType.inline :: ts).dropLast,
                                st.currentBlock ++ ['*', '/']⟩ rest0
              else
                lexStep ⟨st.comments, t :: ts,
                         if t = CommentType.inline then st.currentBlock ++ [c0]
                         else st.currentBlock⟩ rest0

/-- `pos += 2` inside the loop of `lexStep`: the marker's second character,
already inspected by the lookahead, is consumed without further effect. -/
def lexSkip1 : LexState → List Char → LexState
  | st, [] => st
  | st, _ :: rest => lexStep st rest

/-- `pos += 3` inside the loop of `lexStep` (the documentation-block push). -/
def lexSkip2 : LexState → List Char → LexState
  | st, [] => st
  | st, _ :: rest => lexSkip1 st rest

end

/-- One iteration of the outer `for line in lines` loop of
`extract_comments_from_lines`: process the line's characters, then append a
newline to the buffer if a block scope is still open (lines 244-246). -/
def lexLine (st : LexState) (line : List Char) : LexState :=
  let st2 := lexStep st line
  if st2.commentStack.isEmpty then st2
  else { st2 with currentBlock := st2.currentBlock ++ ['\n'] }

/-- `extract_comments_from_lines` (src/src/main.rs lines 161-256): fold the
per-line automaton over the lines, then flush the buffer as a final fragment
when its trimmed content is nonempty (lines 250-253). -/
def extract_comments_from_lines (lines : List (List Char)) : List (List Char) :=
  let st := lines.foldl lexLine ⟨[], [], []⟩
  if (trimChars st.currentBlock).isEmpty then st.comments
  else st.comments ++ [trimChars st.currentBlock]

mutual

/-- The inner character loop of the pre-start-line scan of
`extract_inline_comments` (src/src/main.rs lines 281-350).  Identical to
`lexStep` except in the empty-stack arm that starts no comment marker:
there the collected comments are cleared when they are nonempty and the
current character is not a space (lines 312-317). -/
def lexStepPre : LexState → List Char → LexState
  | st, [] => st
  | st, c0 :: rest0 =>
      match st.commentStack with
      | [] =>
          match rest0 with
          | [] =>
              ⟨if st.comments ≠ [] ∧ c0 ≠ ' ' then [] else st.comments, [], st.currentBlock⟩
          | c1 :: rest1 =>
              if c0 = '/' ∧ c1 = '/' then
                match rest1 with
                | c2 :: _ =>
                    if c2 ≠ '/' ∧ c2 ≠ '!' then
                      ⟨st.comments ++ [trimChars (c0 :: c1 :: rest1)], [], st.currentBlock⟩
                    else st
                | [] => st
              else if c0 = '/' ∧ c1 = '*' then
                match rest1 with
                | c2 :: _ =>
                    if c1 ≠ '*' ∧ c2 ≠ '!' then
                      lexSkip1Pre ⟨st.comments, [CommentType.inline],
                                   st.currentBlock ++ ['/', '*']⟩ rest0
                    else
                      lexSkip2Pre ⟨st.comments, [CommentType.doc], st.currentBlock⟩ rest0
                | [] => ⟨st.comments, [CommentType.doc], st.currentBlock⟩
              else
                lexStepPre ⟨if st.comments ≠ [] ∧ c0 ≠ ' ' then [] else st.comments,
                            [], st.currentBlock⟩ rest0
      | t :: ts =>
          match rest0 with
          | [] =>
              ⟨st.comments, t :: ts,
               if t = CommentType.inline then st.currentBlock ++ [c0] else st.currentBlock⟩
          | c1 :: _ =>
              if c0 = '/' ∧ c1 = '*' then
                lexSkip1Pre ⟨st.comments, t :: ts ++ [CommentType.inline],
                             if t = CommentType.inline then st.currentBlock ++ ['/', '*']
                             else st.currentBlock⟩ rest0
              else if c0 = '*' ∧ c1 = '/' then
                match t with
                | CommentType.doc =>
                    lexSkip1Pre ⟨st.comments, (CommentType.doc :: ts).dropLast,
                                 st.currentBlock⟩ rest0
                | CommentType.inline =>
                    if ((CommentType.inline :: ts).dropLast).isEmpty then
                      lexSkip1Pre ⟨st.comments ++ [trimChars (st.currentBlock ++ ['*', '/'])],
                                   (CommentType.inline :: ts).dropLast, []⟩ rest0
                    else
                      lexSkip1Pre ⟨st.comments, (CommentType.inline :: ts).dropLast,
                                   st.currentBlock ++ ['*', '/']⟩ rest0
              else
                lexStepPre ⟨st.comments, t :: ts,
                            if t = CommentType.inline then st.currentBlock ++ [c0]
                            else st.currentBlock⟩ rest0

/-- `pos += 2` inside the loop of `lexStepPre`. -/
def lexSkip1Pre : LexState → List Char → LexState
  | st, [] => st
  | st, _ :: rest => lexStepPre st rest

/-- `pos += 3` inside the loop of `lexStepPre`. -/
def lexSkip2Pre : LexState → List Char → LexState
  | st, [] => st
  | st, _ :: rest => lexSkip1Pre st rest

end

/-- One iteration of the `while i < extracted_start_line - 1` loop of
`extract_inline_comments`, including the end-of-line newline append. -/
def lexLinePre (st : LexState) (line : List Char) : LexState :=
  let st2 := lexStepPre st line
  if st2.commentStack.isEmpty then st2
  else { st2 with currentBlock := st2.currentBlock ++ ['\n'] }

/-- `extract_inline_comments` (src/src/main.rs lines 265-378): scan the lines
strictly before `extractedStartLine` with the clearing automaton, flush the
buffer, then lex the node's own span `[extractedStartLine, extractedEndLine]`
with `extract_comments_from_lines` and concatenate. -/
def extract_inline_comments (lines : List (List Char))
    (extractedStartLine extractedEndLine : Nat) : List (List Char) :=
  let st := (lines.take (extractedStartLine - 1)).foldl lexLinePre ⟨[], [], []⟩
  let pre := if (trimChars st.currentBlock).isEmpty then st.comments
             else st.comments ++ [trimChars st.currentBlock]
  let inside :=
    if extractedStartLine - 1 < lines.length ∧ extractedEndLine ≤ lines.length then
      extract_comments_from_lines
        ((lines.drop (extractedStartLine - 1)).take (extractedEndLine - (extractedStartLine - 1)))
    else []
  pre ++ inside

/-- An inclusive line span of a syntax node, as read off `span().start().line`
and `span().end().line` (1-indexed in the original). -/
structure Span where
  startLine : Nat
  endLine : Nat
  deriving DecidableEq

/-- One attribute of a node, abstracted to what `extract_doc_comments` reads:
whether `attr.path.is_ident("doc")` holds, and, when `parse_meta()` yields
`Meta::NameValue` with a `Lit::Str`, that literal's value. -/
structure Attr where
  isDocPath : Bool
  docLitStr : Option (List Char)
  deriving DecidableEq

/-- The payload of a function-like node that the program reads: its span and
its attribute list. -/
structure FnData where
  span : Span
  attrs : List Attr
  deriving DecidableEq

/-- `syn::ForeignItem`, restricted to what `find_function_item` distinguishes:
`ForeignItem::Fn` and everything else (the `_ => {}` arm). -/
inductive ForeignItem where
  | fn (d : FnData)
  | otherF
  deriving DecidableEq

/-- `syn::ImplItem`, restricted to what `find_function_item` distinguishes:
`Const`, `Method`, `Type`, `Macro`, `Verbatim` and the catch-all arm, of
which only `Method` is examined. -/
inductive ImplItem where
  | constI
  | method (d : FnData)
  | typeI
  | macI
  | verbatimI
  | otherI
  deriving DecidableEq

/-- `syn::Item`, restricted to the variants `find_function_item` matches:
`Fn`, `ForeignMod`, `Impl`, `Macro` (legacy declaration syntax), `Macro2`
(modern declaration syntax), `Mod` (with optional inline content) and the
catch-all arm.  `ForeignMod` and `Impl` carry their own span as every syn
item does, although `find_function_item` never reads it. -/
inductive Item where
  | fn (d : FnData)
  | foreignMod (sp : Span) (items : List ForeignItem)
  | implB (sp : Span) (items : List ImplItem)
  | macLegacy (d : FnData)
  | macModern (d : FnData)
  | modB (sp : Span) (content : Option (List Item))
  | otherItem

/-- `syn::File`: the top-level item list of a parsed source file. -/
structure File where
  items : List Item

/-- The `FunctionMacroType` enum of the source: the five function-like node
kinds the locator can return. -/
inductive FunctionMacType where
  | itemFn (d : FnData)
  | foreignItemFn (d : FnData)
  | implItemMethod (d : FnData)
  | itemMacLegacy (d : FnData)
  | itemMacModern (d : FnData)
  deriving DecidableEq

/-- The span test used throughout `find_function_item`:
`start_line <= target_line && end_line >= target_line`. -/
def spanContains (sp : Span) (targetLine : Nat) : Bool :=
  sp.startLine ≤ targetLine && sp.endLine ≥ targetLine

/-- The `for foreign_item in &item_foreign_mod.items` loop of
`find_function_item` (src/src/main.rs lines 435-463): at the first
`ForeignItem::Fn`, return it if its span contains the line and return `None`
otherwise (the loop body returns in both branches); other foreign items are
skipped; an exhausted loop returns `None`. -/
def findForeignLoop : List ForeignItem → Nat → Option FunctionMacType
  | [], _ => none
  | ForeignItem.fn d :: _, targetLine =>
      if spanContains d.span targetLine then some (FunctionMacType.foreignItemFn d) else none
  | ForeignItem.otherF :: rest, targetLine => findForeignLoop rest targetLine

/-- The `for impl_item in &item_impl.items` loop of `find_function_item`
(src/src/main.rs lines 466-490): a `Method` whose span contains the line is
returned; a non-matching `Method` and every other item kind fall through to
the next iteration; an exhausted loop returns `None`. -/
def findImplLoop : List ImplItem → Nat → Option FunctionMacType
  | [], _ => none
  | ImplItem.method d :: rest, targetLine =>
      if spanContains d.span targetLine then some (FunctionMacType.implItemMethod d)
      else findImplLoop rest targetLine
  | ImplItem.constI :: rest, targetLine => findImplLoop rest targetLine
  | ImplItem.typeI :: rest, targetLine => findImplLoop rest targetLine
  | ImplItem.macI :: rest, targetLine => findImplLoop rest targetLine
  | ImplItem.verbatimI :: rest, targetLine => findImplLoop rest targetLine
  | ImplItem.otherI :: rest, targetLine => findImplLoop rest targetLine

mutual

/-- `find_function_item` (src/src/main.rs lines 419-543): dispatch on the
item kind; `Fn`, `Macro` and `Macro2` match by their own span; `ForeignMod`
and `Impl` run their inner loops; `Mod` is entered only when its own span
contains the line, and its direct items are searched in order with the
first `Some` returned; all other kinds return `None`. -/
def find_function_item : Item → Nat → Option FunctionMacType
  | Item.fn d, targetLine =>
      if spanContains d.span targetLine then some (FunctionMacType.itemFn d) else none
  | Item.foreignMod _ items, targetLine => findForeignLoop items targetLine
  | Item.implB _ items, targetLine => findImplLoop items targetLine
  | Item.macLegacy d, targetLine =>
      if spanContains d.span targetLine then some (FunctionMacType.itemMacLegacy d) else none
  | Item.macModern d, targetLine =>
      if spanContains d.span targetLine then some (FunctionMacType.itemMacModern d) else none
  | Item.modB sp content, targetLine =>
      if spanContains sp targetLine then
        match content with
        | some modItems => findItemsLoop modItems targetLine
        | none => none
      else none
  | Item.otherItem, _ => none

/-- The `for mod_item in mod_items` loop inside the `Item::Mod` arm of
`find_function_item` (src/src/main.rs lines 518-524), also the shape of the
top-level loop of `find_function_by_start_line`: return the first `Some`. -/
def findItemsLoop : List Item → Nat → Option FunctionMacType
  | [], _ => none
  | it :: rest, targetLine =>
      match find_function_item it targetLine with
      | some res => some res
      | none => findItemsLoop rest targetLine

end

/-- `find_function_by_start_line` (src/src/main.rs lines 546-568): scan the
file's top-level items in order, returning the first `Some` from
`find_function_item`, and `None` when no item matches. -/
def find_function_by_start_line (ast : File) (targetLine : Nat) : Option FunctionMacType :=
  findItemsLoop ast.items targetLine

/-- The body of the `filter_map` occuring in every arm of
`extract_doc_comments`: keep an attribute's string value when its path is
`doc` and its parsed meta is a name-value string literal. -/
def docValue (attr : Attr) : Option (List Char) :=
  if attr.isDocPath then attr.docLitStr else none

/-- The attribute list of a function-like node (`.attrs` of each variant). -/
def attrsOf : FunctionMacType → List Attr
  | FunctionMacType.itemFn d => d.attrs
  | FunctionMacType.foreignItemFn d => d.attrs
  | FunctionMacType.implItemMethod d => d.attrs
  | FunctionMacType.itemMacLegacy d => d.attrs
  | FunctionMacType.itemMacModern d => d.attrs

/-- `extract_doc_comments` (src/src/main.rs lines 50-158): each of the five
arms runs the same `attrs.iter().filter_map(..).collect()`. -/
def extract_doc_comments (func : FunctionMacType) : List (List Char) :=
  match func with
  | FunctionMacType.itemFn d => d.attrs.filterMap docValue
  | FunctionMacType.foreignItemFn d => d.attrs.filterMap docValue
  | FunctionMacType.implItemMethod d => d.attrs.filterMap docValue
  | FunctionMacType.itemMacLegacy d => d.attrs.filterMap docValue
  | FunctionMacType.itemMacModern d => d.attrs.filterMap docValue

/-- `has_doc = !doc_comments.is_empty()` (src/src/main.rs line 1086). -/
def has_doc (docComments : List (List Char)) : Bool := !docComments.isEmpty

/-- Rust's `Vec::join(" ")` on the extracted documentation strings. -/
def joinWithSpace : List (List Char) → List Char
  | [] => []
  | [x] => x
  | x :: xs => x ++ ' ' :: joinWithSpace xs

/-- `doc_paragraph = doc_comments.join(" ")` (src/src/main.rs line 1087). -/
def doc_paragraph (docComments : List (List Char)) : List Char :=
  joinWithSpace docComments

/-- No position of the list starts a `//` or `/*` comment marker (checked on
every adjacent character pair, the way the scanning loop does). -/
def noCommentStart : List Char → Bool
  | c0 :: c1 :: rest =>
      if c0 = '/' ∧ (c1 = '/' ∨ c1 = '*') then false else noCommentStart (c1 :: rest)
  | _ => true

/-- Stated from the spec's words for the implementation-block search: the
first method item, in declaration order, whose span contains the target
line; non-method items are ignored without aborting the search. -/
def specFirstEligibleMethod : List ImplItem → Nat → Option FnData
  | [], _ => none
  | ImplItem.method d :: rest, line =>
      if spanContains d.span line then some d else specFirstEligibleMethod rest line
  | _ :: rest, line => specFirstEligibleMethod rest line

/-- The target line lies strictly outside the item's own span (for the
catch-all items, which carry no span the locator could read, this is
vacuous: they never match anyway). -/
def lineOutsideItem : Item → Nat → Bool
  | Item.fn d, l => !spanContains d.span l
  | Item.foreignMod sp _, l => !spanContains sp l
  | Item.implB sp _, l => !spanContains sp l
  | Item.macLegacy d, l => !spanContains d.span l
  | Item.macModern d, l => !spanContains d.span l
  | Item.modB sp _, l => !spanContains sp l
  | Item.otherItem, _ => true

/-- `inner` is a sub-span of `outer`. -/
def spanWithin (inner outer : Span) : Bool :=
  outer.startLine ≤ inner.startLine && inner.endLine ≤ outer.endLine

/-- Well-formedness of parser output: the declarations inside a foreign
block and the methods inside an implementation block lie within the block's
own span (guaranteed by the parser in the original program). -/
def itemWellNested : Item → Bool
  | Item.foreignMod sp items =>
      items.all fun fi =>
        match fi with
        | ForeignItem.fn d => spanWithin d.span sp
        | ForeignItem.otherF => true
  | Item.implB sp items =>
      items.all fun ii =>
        match ii with
        | ImplItem.method d => spanWithin d.span sp
        | _ => true
  | _ => true

/-- The reachable-state invariant of the comment lexer: the accumulation
buffer holds only newline characters, every emitted fragment starts with
`//`, and the bottom of a nonempty scope stack is a documentation scope. -/
def LexInv (st : LexState) : Prop :=
  (∀ c ∈ st.currentBlock, c = '\n')
  ∧ (∀ f ∈ st.comments, ∃ u, f = '/' :: '/' :: u)
  ∧ (st.commentStack = [] ∨ st.commentStack.head? = some CommentType.doc)

/-! ### Helper lemmas -/

theorem dropWhile_append_of_neg {a : Char} (h : isWSChar a = false)
    (xs ys : List Char) :
    List.dropWhile isWSChar (xs ++ a :: ys)
      = List.dropWhile isWSChar xs ++ a :: ys := by
  induction xs with
  | nil => simp [List.dropWhile_cons, h]
  | cons x xs ih =>
      by_cases hx : isWSChar x = true
      · simp [List.dropWhile_cons, hx, ih]
      · simp at hx
        simp [List.dropWhile_cons, hx]

theorem trimChars_slashslash (t : List Char) :
    trimChars ('/' :: '/' :: t)
      = '/' :: '/' :: (t.reverse.dropWhile isWSChar).reverse := by
  have hs : isWSChar '/' = false := by decide
  unfold trimChars
  rw [List.dropWhile_cons_of_neg (by simp [hs])]
  rw [show (('/' : Char) :: '/' :: t).reverse = t.reverse ++ '/' :: ['/'] from by simp]
  rw [dropWhile_append_of_neg hs]
  simp

theorem trimChars_of_all_newline {l : List Char} (h : ∀ c ∈ l, c = '\n') :
    trimChars l = [] := by
  have : List.dropWhile isWSChar l = [] := by
    rw [List.dropWhile_eq_nil_iff]
    intro x hx
    rw [h x hx]
    decide
  unfold trimChars
  rw [this]
  simp

/-! ### Step lemmas for the comment lexer -/

theorem lexStep_nonmarker_skip (com : List (List Char)) (cur : List Char)
    (c0 c1 : Char) (rest : List Char)
    (h1 : ¬(c0 = '/' ∧ c1 = '/')) (h2 : ¬(c0 = '/' ∧ c1 = '*')) :
    lexStep ⟨com, [], cur⟩ (c0 :: c1 :: rest) = lexStep ⟨com, [], cur⟩ (c1 :: rest) := by
  simp only [lexStep]
  rw [if_neg h1, if_neg h2]

theorem lexStep_line_marker (com : List (List Char)) (cur : List Char)
    (c2 : Char) (tail : List Char) :
    lexStep ⟨com, [], cur⟩ ('/' :: '/' :: c2 :: tail)
      = if c2 ≠ '/' ∧ c2 ≠ '!'
        then ⟨com ++ [trimChars ('/' :: '/' :: c2 :: tail)], [], cur⟩
        else ⟨com, [], cur⟩ := by
  simp only [lexStep]
  rw [if_pos (by simp)]

theorem lexStep_line_marker_end (com : List (List Char)) (cur : List Char) :
    lexStep ⟨com, [], cur⟩ ['/', '/'] = ⟨com, [], cur⟩ := by
  simp only [lexStep]
  rw [if_pos (by simp)]

theorem lexStep_doc_push (com : List (List Char)) (cur : List Char)
    (c2 : Char) (rest2 : List Char) :
    lexStep ⟨com, [], cur⟩ ('/' :: '*' :: c2 :: rest2)
      = lexStep ⟨com, [CommentType.doc], cur⟩ rest2 := by
  simp only [lexStep, lexSkip1, lexSkip2]
  rw [if_neg (by simp), if_pos (by simp), if_neg (by simp)]

theorem lexStep_doc_push_end (com : List (List Char)) (cur : List Char) :
    lexStep ⟨com, [], cur⟩ ['/', '*'] = ⟨com, [CommentType.doc], cur⟩ := by
  simp only [lexStep]
  rw [if_neg (by simp), if_pos (by simp)]

theorem dropLast_doc_cons (ts : List CommentType) :
    (CommentType.doc :: ts).dropLast = []
      ∨ ((CommentType.doc :: ts).dropLast).head? = some CommentType.doc := by
  cases ts with
  | nil => left; rfl
  | cons t' ts' => right; rfl

theorem lexInv_preserved :
    ∀ (n : Nat) (st : LexState) (l : List Char), l.length ≤ n →
      LexInv st → LexInv (lexStep st l) ∧ LexInv (lexSkip1 st l) ∧ LexInv (lexSkip2 st l) := by
  intro n
  induction n with
  | zero =>
      intro st l hl hinv
      have hnil : l = [] := List.length_eq_zero.mp (Nat.le_zero.mp hl)
      subst hnil
      exact ⟨hinv, hinv, hinv⟩
  | succ n ih =>
      intro st l hl hinv
      cases l with
      | nil => exact ⟨hinv, hinv, hinv⟩
      | cons c0 rest0 =>
          have hr : rest0.length ≤ n := by
            simp only [List.length_cons] at hl
            omega
          obtain ⟨com, stk, cur⟩ := st
          obtain ⟨h1, h2, h3⟩ := hinv
          refine ⟨?_, (ih ⟨com, stk, cur⟩ rest0 hr ⟨h1, h2, h3⟩).1,
                  (ih ⟨com, stk, cur⟩ rest0 hr ⟨h1, h2, h3⟩).2.1⟩
          cases stk with
          | nil =>
              cases rest0 with
              | nil => exact ⟨h1, h2, h3⟩
              | cons c1 rest1 =>
                  simp only [lexStep]
                  by_cases hA : c0 = '/' ∧ c1 = '/'
                  · rw [if_pos hA]
                    cases rest1 with
                    | nil => exact ⟨h1, h2, h3⟩
                    | cons c2 rest2 =>
                        dsimp only
                        by_cases hB : c2 ≠ '/' ∧ c2 ≠ '!'
                        · rw [if_pos hB]
                          refine ⟨h1, ?_, Or.inl rfl⟩
                          intro f hf
                          rcases List.mem_append.mp hf with hf | hf
                          · exact h2 f hf
                          · obtain rfl : f = trimChars (c0 :: c1 :: c2 :: rest2) := by
                              simpa using hf
                            obtain ⟨rfl, rfl⟩ := hA
                            rw [trimChars_slashslash]
                            exact ⟨_, rfl⟩
                        · rw [if_neg hB]; exact ⟨h1, h2, h3⟩
                  · rw [if_neg hA]
                    by_cases hC : c0 = '/' ∧ c1 = '*'
                    · rw [if_pos hC]
                      cases rest1 with
                      | nil => exact ⟨h1, h2, Or.inr rfl⟩
                      | cons c2 rest2 =>
                          dsimp only
                          rw [if_neg (by simp [hC.2])]
                          exact (ih ⟨com, [CommentType.doc], cur⟩ (c1 :: c2 :: rest2) hr
                                  ⟨h1, h2, Or.inr rfl⟩).2.2
                    · rw [if_neg hC]
                      exact (ih ⟨com, [], cur⟩ (c1 :: rest1) hr ⟨h1, h2, h3⟩).1
          | cons t ts =>
              have ht : t = CommentType.doc := by
                rcases h3 with h3 | h3
                · exact absurd h3 (by simp)
                · simpa using h3
              subst ht
              cases rest0 with
              | nil =>
                  simp only [lexStep]
                  rw [if_neg (show ¬(CommentType.doc = CommentType.inline) from by decide)]
                  exact ⟨h1, h2, Or.inr rfl⟩
              | cons c1 rest1 =>
                  simp only [lexStep]
                  by_cases hA : c0 = '/' ∧ c1 = '*'
                  · rw [if_pos hA,
                        if_neg (show ¬(CommentType.doc = CommentType.inline) from by decide)]
                    exact (ih ⟨com, CommentType.doc :: ts ++ [CommentType.inline], cur⟩
                            (c1 :: rest1) hr ⟨h1, h2, Or.inr rfl⟩).2.1
                  · rw [if_neg hA]
                    by_cases hB : c0 = '*' ∧ c1 = '/'
                    · rw [if_pos hB]
                      exact (ih ⟨com, (CommentType.doc :: ts).dropLast, cur⟩
                              (c1 :: rest1) hr ⟨h1, h2, dropLast_doc_cons ts⟩).2.1
                    · rw [if_neg hB,
                          if_neg (show ¬(CommentType.doc = CommentType.inline) from by decide)]
                      exact (ih ⟨com, CommentType.doc :: ts, cur⟩
                              (c1 :: rest1) hr ⟨h1, h2, Or.inr rfl⟩).1

theorem lexInv_lexLine (st : LexState) (line : List Char) (h : LexInv st) :
    LexInv (lexLine st line) := by
  have hstep := (lexInv_preserved line.length st line le_rfl h).1
  unfold lexLine
  by_cases hs : (lexStep st line).commentStack.isEmpty
  · simpa [hs] using hstep
  · simp only [hs, if_false, Bool.false_eq_true]
    obtain ⟨a, b, c⟩ := hstep
    refine ⟨?_, b, c⟩
    intro ch hch
    rcases List.mem_append.mp hch with h' | h'
    · exact a ch h'
    · simpa using h'

theorem lexInv_fold (lines : List (List Char)) (st : LexState) (h : LexInv st) :
    LexInv (lines.foldl lexLine st) := by
  induction lines generalizing st with
  | nil => simpa using h
  | cons l ls ih => simpa using ih (lexLine st l) (lexInv_lexLine st l h)

theorem lexInv_initial : LexInv ⟨[], [], []⟩ :=
  ⟨by simp, by simp, Or.inl rfl⟩

theorem extract_comments_eq_final_comments (lines : List (List Char)) :
    extract_comments_from_lines lines = (lines.foldl lexLine ⟨[], [], []⟩).comments := by
  have hinv := lexInv_fold lines ⟨[], [], []⟩ lexInv_initial
  unfold extract_comments_from_lines
  dsimp only
  rw [trimChars_of_all_newline hinv.1]
  simp

theorem lexStep_before_marker (c2 : Char) (tail : List Char) :
    ∀ (pre : List Char) (com : List (List Char)) (cur : List Char),
      noCommentStart (pre ++ ['/']) = true →
      lexStep ⟨com, [], cur⟩ (pre ++ '/' :: '/' :: c2 :: tail)
        = if c2 ≠ '/' ∧ c2 ≠ '!'
          then ⟨com ++ [trimChars ('/' :: '/' :: c2 :: tail)], [], cur⟩
          else ⟨com, [], cur⟩ := by
  intro pre
  induction pre with
  | nil =>
      intro com cur _
      simpa using lexStep_line_marker com cur c2 tail
  | cons p pre ih =>
      intro com cur hpre
      cases pre with
      | nil =>
          have hp : p ≠ '/' := by
            intro h
            subst h
            simp [noCommentStart] at hpre
          rw [List.cons_append, List.nil_append,
              lexStep_nonmarker_skip com cur p '/' _ (by simp [hp]) (by simp [hp])]
          exact lexStep_line_marker com cur c2 tail
      | cons q pre' =>
          have hguard : ¬(p = '/' ∧ (q = '/' ∨ q = '*')) := by
            intro h
            simp only [noCommentStart, List.cons_append, if_pos h] at hpre
            exact absurd hpre (by simp)
          have h1 : ¬(p = '/' ∧ q = '/') := fun h => hguard ⟨h.1, Or.inl h.2⟩
          have h2 : ¬(p = '/' ∧ q = '*') := fun h => hguard ⟨h.1, Or.inr h.2⟩
          have hrest : noCommentStart ((q :: pre') ++ ['/']) = true := by
            simp only [noCommentStart, List.cons_append] at hpre
            rw [if_neg hguard] at hpre
            simpa using hpre
          rw [List.cons_append, List.cons_append,
              lexStep_nonmarker_skip com cur p q _ h1 h2]
          simpa using ih com cur hrest

/-- C10: every fragment that `extract_comments_from_lines` emits begins with
`//`: the ordinary-block guard `chars[pos+1] != '*'` can never hold when a
`/*` is seen outside any scope, so the first scope pushed is always a
documentation scope, the accumulation buffer only ever receives newline
characters, and no block comment ever produces a fragment. -/
theorem c10_every_fragment_starts_with_line_marker :
    (∀ (lines : List (List Char)) (f : List Char),
        f ∈ extract_comments_from_lines lines → ∃ u, f = '/' :: '/' :: u)
    ∧ (∀ (com : List (List Char)) (cur : List Char) (c2 : Char) (rest2 : List Char),
        lexStep ⟨com, [], cur⟩ ('/' :: '*' :: c2 :: rest2)
          = lexStep ⟨com, [CommentType.doc], cur⟩ rest2) := by
  constructor
  · intro lines f hf
    rw [extract_comments_eq_final_comments] at hf
    exact (lexInv_fold lines ⟨[], [], []⟩ lexInv_initial).2.1 f hf
  · exact lexStep_doc_push

/-- Witness for C10 at a concrete input. -/
theorem c10_witness :
    (("// a".toList) ∈ extract_comments_from_lines [("// a".toList)])
    ∧ ∃ u, ("// a".toList) = '/' :: '/' :: u :=
  ⟨by decide,
   c10_every_fragment_starts_with_line_marker.1 [("// a".toList)] ("// a".toList) (by decide)⟩

/-- C3: for a line whose first comment marker outside any block scope is
`//` followed by a character that is neither `/` nor `!`, the lexer emits
exactly one fragment, the text from the marker to the end of the line,
trimmed, and skips the rest of the line; for `///` or `//!` markers it
emits nothing. -/
theorem c3_line_comment_fragment :
    (∀ (pre : List Char) (com : List (List Char)) (cur : List Char) (c2 : Char)
        (tail : List Char),
        noCommentStart (pre ++ ['/']) = true → c2 ≠ '/' → c2 ≠ '!' →
        lexStep ⟨com, [], cur⟩ (pre ++ '/' :: '/' :: c2 :: tail)
          = ⟨com ++ [trimChars ('/' :: '/' :: c2 :: tail)], [], cur⟩)
    ∧ (∀ (pre : List Char) (c2 : Char) (tail : List Char),
        noCommentStart (pre ++ ['/']) = true → c2 ≠ '/' → c2 ≠ '!' →
        extract_comments_from_lines [pre ++ '/' :: '/' :: c2 :: tail]
          = [trimChars ('/' :: '/' :: c2 :: tail)])
    ∧ (∀ (pre : List Char) (c2 : Char) (tail : List Char),
        noCommentStart (pre ++ ['/']) = true → (c2 = '/' ∨ c2 = '!') →
        extract_comments_from_lines [pre ++ '/' :: '/' :: c2 :: tail] = []) := by
  refine ⟨?_, ?_, ?_⟩
  · intro pre com cur c2 tail hpre ha hb
    have hc : c2 ≠ '/' ∧ c2 ≠ '!' := ⟨ha, hb⟩
    rw [lexStep_before_marker c2 tail pre com cur hpre, if_pos hc]
  · intro pre c2 tail hpre ha hb
    have hc : c2 ≠ '/' ∧ c2 ≠ '!' := ⟨ha, hb⟩
    unfold extract_comments_from_lines
    simp only [List.foldl]
    unfold lexLine
    rw [lexStep_before_marker c2 tail pre [] [] hpre, if_pos hc]
    simp [trimChars]
  · intro pre c2 tail hpre hor
    have hneg : ¬(c2 ≠ '/' ∧ c2 ≠ '!') := by
      rcases hor with h | h <;> simp [h]
    unfold extract_comments_from_lines
    simp only [List.foldl]
    unfold lexLine
    rw [lexStep_before_marker c2 tail pre [] [] hpre, if_neg hneg]
    simp [trimChars]

/-- Witness for C3 at a concrete input. -/
theorem c3_witness :
    (noCommentStart ((' ' :: []) ++ ['/']) = true
      ∧ (' ' : Char) ≠ '/' ∧ (' ' : Char) ≠ '!')
    ∧ extract_comments_from_lines [(' ' :: []) ++ '/' :: '/' :: ' ' :: ("text".toList)]
        = [trimChars ('/' :: '/' :: ' ' :: ("text".toList))] :=
  ⟨⟨by decide, by decide, by decide⟩,
   c3_line_comment_fragment.2.1 (' ' :: []) ' ' ("text".toList)
     (by decide) (by decide) (by decide)⟩

/-- C2: the preceding-block collector's contiguity rule: outside any comment
scope, a non-space character at a position that starts no comment marker
clears the collected comments and scanning continues; a space is skipped
without clearing; a blank line leaves the collected comments unchanged; on
the spec's four-line example targeting line 4, only `// kept comment`
survives. -/
theorem c2_contiguity :
    (∀ (com : List (List Char)) (cur : List Char) (c0 c1 : Char) (rest : List Char),
        com ≠ [] → c0 ≠ ' ' → ¬(c0 = '/' ∧ c1 = '/') → ¬(c0 = '/' ∧ c1 = '*') →
        lexStepPre ⟨com, [], cur⟩ (c0 :: c1 :: rest) = lexStepPre ⟨[], [], cur⟩ (c1 :: rest))
    ∧ (∀ (com : List (List Char)) (cur : List Char) (rest : List Char),
        lexStepPre ⟨com, [], cur⟩ (' ' :: rest) = lexStepPre ⟨com, [], cur⟩ rest)
    ∧ (∀ st : LexState, (lexLinePre st []).comments = st.comments)
    ∧ extract_inline_comments
        [("// stale comment".toList), ("code_line();".toList), ("// kept comment".toList),
         ("fn target() \x7b\x7d".toList)] 4 4 = [("// kept comment".toList)] := by
  refine ⟨?_, ?_, ?_, by decide⟩
  · intro com cur c0 c1 rest hcom hc0 h1 h2
    have hclear : com ≠ [] ∧ c0 ≠ ' ' := ⟨hcom, hc0⟩
    simp only [lexStepPre]
    rw [if_neg h1, if_neg h2, if_pos hclear]
  · intro com cur rest
    cases rest with
    | nil =>
        simp only [lexStepPre]
        rw [if_neg (show ¬(com ≠ [] ∧ (' ' : Char) ≠ ' ') from by simp)]
    | cons c1 rest' =>
        simp only [lexStepPre]
        rw [if_neg (show ¬((' ' : Char) = '/' ∧ c1 = '/') from by simp),
            if_neg (show ¬((' ' : Char) = '/' ∧ c1 = '*') from by simp),
            if_neg (show ¬(com ≠ [] ∧ (' ' : Char) ≠ ' ') from by simp)]
  · intro st
    unfold lexLinePre
    simp only [lexStepPre]
    split <;> rfl

/-- Witness for C2 at a concrete input. -/
theorem c2_witness :
    ((["// x".toList] : List (List Char)) ≠ [] ∧ ('a' : Char) ≠ ' '
      ∧ ¬(('a' : Char) = '/' ∧ ('b' : Char) = '/')
      ∧ ¬(('a' : Char) = '/' ∧ ('b' : Char) = '*'))
    ∧ lexStepPre ⟨["// x".toList], [], []⟩ ('a' :: 'b' :: [])
        = lexStepPre ⟨[], [], []⟩ ('b' :: []) :=
  ⟨⟨by decide, by decide, by decide, by decide⟩,
   c2_contiguity.1 ["// x".toList] [] 'a' 'b' []
     (by decide) (by decide) (by decide) (by decide)⟩

/-- C4 counterexample: after scanning `/* /* y` from the initial state, the
innermost (most recently opened) scope is ordinary, yet neither `y` nor any
other character was appended to the accumulation buffer — the append test
reads `commentStack[0]`, the first-opened scope, which is `doc` here. -/
theorem c4_counterexample :
    (lexStep ⟨[], [], []⟩ ("/* /* y".toList)).commentStack
        = [CommentType.doc, CommentType.inline]
    ∧ [CommentType.doc, CommentType.inline].getLast? = some CommentType.inline
    ∧ (lexStep ⟨[], [], []⟩ ("/* /* y".toList)).currentBlock = [] := by decide

/-- C4 (amended): while block scopes are open, a non-delimiter character is
appended to the accumulation buffer if and only if the first-opened
(bottom-of-stack, `commentStack[0]`) scope is ordinary — not the innermost
one. -/
theorem c4_append_iff_first_scope_ordinary :
    (∀ (com : List (List Char)) (t : CommentType) (ts : List CommentType)
        (cur : List Char) (c0 c1 : Char) (rest : List Char),
        ¬(c0 = '/' ∧ c1 = '*') → ¬(c0 = '*' ∧ c1 = '/') →
        lexStep ⟨com, t :: ts, cur⟩ (c0 :: c1 :: rest)
          = lexStep ⟨com, t :: ts, if t = CommentType.inline then cur ++ [c0] else cur⟩
              (c1 :: rest))
    ∧ (∀ (com : List (List Char)) (t : CommentType) (ts : List CommentType)
        (cur : List Char) (c0 : Char),
        (lexStep ⟨com, t :: ts, cur⟩ [c0]).currentBlock = cur ++ [c0]
          ↔ t = CommentType.inline) := by
  constructor
  · intro com t ts cur c0 c1 rest h1 h2
    simp only [lexStep]
    rw [if_neg h1, if_neg h2]
  · intro com t ts cur c0
    simp only [lexStep]
    cases t with
    | doc => simp
    | inline => simp

/-- Witness for C4 at a concrete input. -/
theorem c4_witness :
    (¬(('x' : Char) = '/' ∧ ('y' : Char) = '*')
      ∧ ¬(('x' : Char) = '*' ∧ ('y' : Char) = '/'))
    ∧ lexStep ⟨[], [CommentType.doc], []⟩ ('x' :: 'y' :: [])
        = lexStep ⟨[], [CommentType.doc],
                   if CommentType.doc = CommentType.inline then [] ++ ['x'] else []⟩
            ('y' :: []) :=
  ⟨⟨by decide, by decide⟩,
   c4_append_iff_first_scope_ordinary.1 [] CommentType.doc [] [] 'x' 'y' []
     (by decide) (by decide)⟩

/-- C1, code evaluated at the failing input: on the spec's balanced nested
block comment the lexer emits no fragment at all, because the guard
`chars[pos+1] != '*'` at line 196 is always false and the comment is
classified as a documentation block. -/
theorem c1_nested_block_comment_eval :
    extract_comments_from_lines [("/* a /* b */ c */".toList)] = [] := by decide

/-- C8, code evaluated at the failing input: an unterminated block comment
reaches end of range with a buffer holding only newlines, so no best-effort
final fragment is emitted (extraction still returns normally, with an empty
result), in both the lexer and the pre-start-line scan. -/
theorem c8_unterminated_block_eval :
    extract_comments_from_lines [("/* truncated".toList)] = []
    ∧ extract_inline_comments [("/* truncated".toList), ("fn f() \x7b\x7d".toList)] 2 2
        = [] := by decide

theorem find_function_item_fn (d : FnData) (l : Nat) :
    find_function_item (Item.fn d) l
      = if spanContains d.span l then some (FunctionMacType.itemFn d) else none := rfl

theorem find_function_item_foreignMod (sp : Span) (items : List ForeignItem) (l : Nat) :
    find_function_item (Item.foreignMod sp items) l = findForeignLoop items l := rfl

theorem find_function_item_implB (sp : Span) (items : List ImplItem) (l : Nat) :
    find_function_item (Item.implB sp items) l = findImplLoop items l := rfl

theorem find_function_item_macLegacy (d : FnData) (l : Nat) :
    find_function_item (Item.macLegacy d) l
      = if spanContains d.span l then some (FunctionMacType.itemMacLegacy d) else none := rfl

theorem find_function_item_macModern (d : FnData) (l : Nat) :
    find_function_item (Item.macModern d) l
      = if spanContains d.span l then some (FunctionMacType.itemMacModern d) else none := rfl

theorem find_function_item_modB_some (sp : Span) (mods : List Item) (l : Nat) :
    find_function_item (Item.modB sp (some mods)) l
      = if spanContains sp l then findItemsLoop mods l else none := rfl

theorem find_function_item_modB_none (sp : Span) (l : Nat) :
    find_function_item (Item.modB sp none) l = none := by
  have h : find_function_item (Item.modB sp none) l
      = if spanContains sp l then none else none := rfl
  rw [h, ite_self]

theorem find_function_item_otherItem (l : Nat) :
    find_function_item Item.otherItem l = none := rfl

theorem findItemsLoop_nil (l : Nat) : findItemsLoop [] l = none := rfl

theorem findItemsLoop_cons (it : Item) (rest : List Item) (l : Nat) :
    findItemsLoop (it :: rest) l
      = match find_function_item it l with
        | some r => some r
        | none => findItemsLoop rest l := rfl

theorem spanContains_of_within {inner outer : Span} {l : Nat}
    (hw : spanWithin inner outer = true) (ho : spanContains outer l = false) :
    spanContains inner l = false := by
  simp only [spanWithin, spanContains, Bool.and_eq_true, decide_eq_true_eq] at hw
  simp only [spanContains, Bool.and_eq_false_iff, decide_eq_false_iff_not] at ho ⊢
  omega

theorem findForeignLoop_none (line : Nat) :
    ∀ items : List ForeignItem,
      (∀ d : FnData, ForeignItem.fn d ∈ items → spanContains d.span line = false) →
      findForeignLoop items line = none := by
  intro items
  induction items with
  | nil => intro _; rfl
  | cons fi rest ih =>
      intro h
      cases fi with
      | fn d =>
          simp only [findForeignLoop]
          rw [if_neg (by simp [h d (by simp)])]
      | otherF =>
          simp only [findForeignLoop]
          exact ih fun d hd => h d (by simp [hd])

theorem findImplLoop_none (line : Nat) :
    ∀ items : List ImplItem,
      (∀ d : FnData, ImplItem.method d ∈ items → spanContains d.span line = false) →
      findImplLoop items line = none := by
  intro items
  induction items with
  | nil => intro _; rfl
  | cons ii rest ih =>
      intro h
      cases ii with
      | method d =>
          simp only [findImplLoop]
          rw [if_neg (by simp [h d (by simp)])]
          exact ih fun d' hd' => h d' (by simp [hd'])
      | constI => exact ih fun d' hd' => h d' (by simp [hd'])
      | typeI => exact ih fun d' hd' => h d' (by simp [hd'])
      | macI => exact ih fun d' hd' => h d' (by simp [hd'])
      | verbatimI => exact ih fun d' hd' => h d' (by simp [hd'])
      | otherI => exact ih fun d' hd' => h d' (by simp [hd'])

/-- C5 counterexample: a foreign block with two fn declarations, the first
spanning lines 1-2 and the second lines 4-5; targeting line 4 the search
returns `None` although the second declaration's span contains the line. -/
theorem c5_counterexample :
    find_function_item
        (Item.foreignMod ⟨1, 5⟩ [ForeignItem.fn ⟨⟨1, 2⟩, []⟩, ForeignItem.fn ⟨⟨4, 5⟩, []⟩]) 4
      = none
    ∧ spanContains ⟨4, 5⟩ 4 = true := by decide

/-- C5 (amended): the foreign-declaration search early-exits: non-fn items
are skipped, and the first fn declaration decides the result — it is
returned when its span contains the line and the search answers `None`
immediately otherwise, so a declaration after a non-matching fn declaration
is never found; a block with no fn declaration yields `None`. -/
theorem c5_foreign_first_fn_decides :
    (∀ (sp : Span) (pre : List ForeignItem) (d : FnData) (rest : List ForeignItem)
        (line : Nat),
        (∀ fi ∈ pre, fi = ForeignItem.otherF) →
        find_function_item (Item.foreignMod sp (pre ++ ForeignItem.fn d :: rest)) line
          = if spanContains d.span line then some (FunctionMacType.foreignItemFn d)
            else none)
    ∧ (∀ (sp : Span) (items : List ForeignItem) (line : Nat),
        (∀ fi ∈ items, fi = ForeignItem.otherF) →
        find_function_item (Item.foreignMod sp items) line = none) := by
  constructor
  · intro sp pre d rest line
    rw [find_function_item_foreignMod]
    induction pre with
    | nil => intro _; rfl
    | cons p pre ih =>
        intro hpre
        have hp : p = ForeignItem.otherF := hpre p (by simp)
        subst hp
        simp only [List.cons_append, findForeignLoop]
        exact ih fun fi hfi => hpre fi (by simp [hfi])
  · intro sp items line
    rw [find_function_item_foreignMod]
    induction items with
    | nil => intro _; rfl
    | cons p items ih =>
        intro hall
        have hp : p = ForeignItem.otherF := hall p (by simp)
        subst hp
        simp only [findForeignLoop]
        exact ih fun fi hfi => hall fi (by simp [hfi])

/-- Witness for C5's amended statement at a concrete input. -/
theorem c5_witness :
    find_function_item
        (Item.foreignMod ⟨1, 9⟩
          [ForeignItem.otherF, ForeignItem.fn ⟨⟨4, 5⟩, []⟩, ForeignItem.otherF]) 4
      = if spanContains (⟨4, 5⟩ : Span) 4 then
          some (FunctionMacType.foreignItemFn ⟨⟨4, 5⟩, []⟩)
        else none :=
  c5_foreign_first_fn_decides.1 ⟨1, 9⟩ [ForeignItem.otherF] ⟨⟨4, 5⟩, []⟩
    [ForeignItem.otherF] 4 (by intro fi hfi; simpa using hfi)

/-- C6: the implementation-block search considers only method items, in
declaration order — associated constants, nested type aliases, nested macro
invocations and verbatim items are skipped without aborting — and returns
the first method whose span contains the target line; when no method's span
contains the line (even if the line is inside the block), the result is
`None`. -/
theorem c6_impl_first_method :
    (∀ (sp : Span) (items : List ImplItem) (line : Nat),
        find_function_item (Item.implB sp items) line
          = (specFirstEligibleMethod items line).map FunctionMacType.implItemMethod)
    ∧ (∀ (sp : Span) (items : List ImplItem) (line : Nat),
        (∀ d : FnData, ImplItem.method d ∈ items → spanContains d.span line = false) →
        find_function_item (Item.implB sp items) line = none) := by
  have key : ∀ (items : List ImplItem) (line : Nat),
      findImplLoop items line
        = (specFirstEligibleMethod items line).map FunctionMacType.implItemMethod := by
    intro items line
    induction items with
    | nil => rfl
    | cons it rest ih =>
        cases it with
        | method d =>
            simp only [findImplLoop, specFirstEligibleMethod]
            by_cases h : spanContains d.span line = true
            · rw [if_pos h, if_pos h]; rfl
            · rw [if_neg h, if_neg h]; exact ih
        | constI => simpa only [findImplLoop, specFirstEligibleMethod] using ih
        | typeI => simpa only [findImplLoop, specFirstEligibleMethod] using ih
        | macI => simpa only [findImplLoop, specFirstEligibleMethod] using ih
        | verbatimI => simpa only [findImplLoop, specFirstEligibleMethod] using ih
        | otherI => simpa only [findImplLoop, specFirstEligibleMethod] using ih
  constructor
  · intro sp items line
    rw [find_function_item_implB]
    exact key items line
  · intro sp items line h
    rw [find_function_item_implB]
    exact findImplLoop_none line items h

/-- Witness for C6's second conjunct at a concrete input. -/
theorem c6_witness :
    find_function_item
        (Item.implB ⟨1, 9⟩ [ImplItem.constI, ImplItem.method ⟨⟨3, 4⟩, []⟩]) 5 = none :=
  c6_impl_first_method.2 ⟨1, 9⟩ [ImplItem.constI, ImplItem.method ⟨⟨3, 4⟩, []⟩] 5
    (by intro d hd; simp at hd; subst hd; decide)

theorem find_function_item_outside (targetLine : Nat) :
    ∀ it : Item, itemWellNested it = true → lineOutsideItem it targetLine = true →
      find_function_item it targetLine = none := by
  intro it
  cases it with
  | fn d =>
      intro hw ho
      simp only [lineOutsideItem, Bool.not_eq_true'] at ho
      rw [find_function_item_fn]
      simp [ho]
  | foreignMod sp items =>
      intro hw ho
      simp only [lineOutsideItem, Bool.not_eq_true'] at ho
      rw [find_function_item_foreignMod]
      apply findForeignLoop_none
      intro d hd
      refine spanContains_of_within ?_ ho
      simp only [itemWellNested, List.all_eq_true] at hw
      simpa using hw (ForeignItem.fn d) hd
  | implB sp items =>
      intro hw ho
      simp only [lineOutsideItem, Bool.not_eq_true'] at ho
      rw [find_function_item_implB]
      apply findImplLoop_none
      intro d hd
      refine spanContains_of_within ?_ ho
      simp only [itemWellNested, List.all_eq_true] at hw
      simpa using hw (ImplItem.method d) hd
  | macLegacy d =>
      intro hw ho
      simp only [lineOutsideItem, Bool.not_eq_true'] at ho
      rw [find_function_item_macLegacy]
      simp [ho]
  | macModern d =>
      intro hw ho
      simp only [lineOutsideItem, Bool.not_eq_true'] at ho
      rw [find_function_item_macModern]
      simp [ho]
  | modB sp content =>
      intro hw ho
      simp only [lineOutsideItem, Bool.not_eq_true'] at ho
      cases content with
      | none => exact find_function_item_modB_none sp targetLine
      | some mods =>
          rw [find_function_item_modB_some]
          simp [ho]
  | otherItem => intro _ _; rfl

/-- C7: for every parsed file with well-nested spans and every target line
strictly outside the span of every top-level item (in particular line 0 or
a line past end of file), `find_function_by_start_line` returns `None`; the
search is a total function, never a failure. -/
theorem c7_outside_every_item_not_found :
    ∀ (ast : File) (targetLine : Nat),
      (∀ it ∈ ast.items, itemWellNested it = true ∧ lineOutsideItem it targetLine = true) →
      find_function_by_start_line ast targetLine = none := by
  intro ast targetLine
  obtain ⟨items⟩ := ast
  unfold find_function_by_start_line
  dsimp only
  induction items with
  | nil => intro _; rfl
  | cons it rest ih =>
      intro h
      rw [findItemsLoop_cons,
          find_function_item_outside targetLine it (h it (by simp)).1 (h it (by simp)).2]
      exact ih fun it' hit' => h it' (by simp [hit'])

/-- Witness for C7 at a concrete input: target line 0 lies outside every
span of a file with a function, a foreign block, an implementation block
and a populated inline module. -/
theorem c7_witness :
    find_function_by_start_line
      ⟨[Item.fn ⟨⟨2, 4⟩, []⟩,
        Item.foreignMod ⟨5, 7⟩ [ForeignItem.fn ⟨⟨6, 6⟩, []⟩],
        Item.implB ⟨8, 11⟩ [ImplItem.method ⟨⟨9, 10⟩, []⟩],
        Item.modB ⟨12, 15⟩ (some [Item.fn ⟨⟨13, 14⟩, []⟩]),
        Item.otherItem]⟩ 0 = none :=
  c7_outside_every_item_not_found _ 0 (by decide)

theorem filterMap_docValue_split :
    ∀ attrs : List Attr,
      attrs.filterMap docValue
        = (attrs.filter fun a => (docValue a).isSome).map fun a => (docValue a).getD [] := by
  intro attrs
  induction attrs with
  | nil => rfl
  | cons a rest ih =>
      cases hv : docValue a with
      | none => simp [List.filterMap_cons, List.filter_cons, hv, ih]
      | some s => simp [List.filterMap_cons, List.filter_cons, hv, ih]

theorem filterMap_docValue_ne_nil :
    ∀ attrs : List Attr,
      attrs.filterMap docValue ≠ [] ↔ ∃ a ∈ attrs, (docValue a).isSome = true := by
  intro attrs
  induction attrs with
  | nil => simp
  | cons a rest ih =>
      cases hv : docValue a with
      | none => simp [List.filterMap_cons, hv, ih]
      | some s => simp [List.filterMap_cons, hv]

/-- C9: `extract_doc_comments` returns exactly the string values of the
node's doc name-value attributes, one per documentation attribute, in
source order; `has_doc` is true iff at least one such attribute exists (so
absence yields the empty list and `has_doc = false`); `doc_paragraph`
joins the strings with a single space. -/
theorem c9_doc_extraction :
    (∀ func : FunctionMacType,
        extract_doc_comments func
          = ((attrsOf func).filter fun a => (docValue a).isSome).map
              fun a => (docValue a).getD [])
    ∧ (∀ func : FunctionMacType,
        has_doc (extract_doc_comments func) = true
          ↔ ∃ a ∈ attrsOf func, (docValue a).isSome = true)
    ∧ (∀ x y : List Char, doc_paragraph [x, y] = x ++ ' ' :: y)
    ∧ doc_paragraph [] = [] := by
  refine ⟨?_, ?_, fun x y => rfl, rfl⟩
  · intro func
    cases func <;> exact filterMap_docValue_split _
  · intro func
    have hne : extract_doc_comments func = (attrsOf func).filterMap docValue := by
      cases func <;> rfl
    rw [hne]
    simp only [has_doc, Bool.not_eq_true', ← Bool.not_eq_true, List.isEmpty_iff,
               ne_eq]
    constructor
    · intro h
      exact (filterMap_docValue_ne_nil (attrsOf func)).1 (by simpa using h)
    · intro h
      have := (filterMap_docValue_ne_nil (attrsOf func)).2 h
      simpa using this
